import Mathlib

/-!
Shallow embedding of the gotree repository for specification checking.

Part 1 embeds the tree graph model of tree/node.go. The Go code links
nodes and edges through mutual pointers; following the spec's design
note, the embedding represents nodes and edges as entries of arenas
addressed by natural-number identifiers, so Go pointer equality becomes
identifier equality. Go methods that mutate their receiver are modelled
as functions returning the updated node, paired with the error value
where the method returns one.
-/

/-- An edge of the tree graph. The Edge structure itself lives in
tree/edge.go, outside src; its fields are taken from their uses in
tree/node.go and from the spec: a left and a right endpoint ("left is
parent of right"), and length/support annotations whose absent value is
the sentinel -1. The Go code stores the annotations as float64 and, in
the code in scope, only compares them with the exact sentinel -1; they
are modelled as integers. -/
structure REdge where
  left : Nat
  right : Nat
  length : Int := -1
  support : Int := -1
deriving DecidableEq, Repr, Inhabited

/-- A node of the tree graph, as in tree/node.go: a name, a comment
list, the parallel neighbour and branch arrays (holding identifiers),
and a depth. -/
structure RNode where
  name : String := ""
  comment : List String := []
  neigh : List Nat := []
  br : List Nat := []
  depth : Int := 0
deriving DecidableEq, Repr, Inhabited

/-- Node.addChild: appends the child and the edge to the two parallel
arrays of the parent. -/
def RNode.addChild (p : RNode) (n e : Nat) : RNode :=
  { p with neigh := p.neigh ++ [n], br := p.br ++ [e] }

/-- Node.SetName. -/
def RNode.SetName (n : RNode) (name : String) : RNode := { n with name := name }

/-- Node.AddComment. -/
def RNode.AddComment (n : RNode) (c : String) : RNode :=
  { n with comment := n.comment ++ [c] }

/-- Node.SetDepth. -/
def RNode.SetDepth (n : RNode) (d : Int) : RNode := { n with depth := d }

/-- The linear scan of Node.NodeIndex: position of the first occurrence
of a neighbour identifier. -/
def firstIdx : List Nat → Nat → Option Nat
  | [], _ => none
  | x :: xs, y => if x = y then some 0 else (firstIdx xs y).map (· + 1)

def nodeNotFoundMsg : String := "The Node is not in the neighbors of node"

def edgeNotFoundMsg : String := "The Edge is not in the neighbors of node"

def noParentMsg : String := "The node has no parent : May be the root?"

def multiParentMsg : String := "The node has more than one parent"

/-- Node.NodeIndex: first index of the given node in the neighbour
array, or the not-found error. -/
def RNode.NodeIndex (n : RNode) (next : Nat) : Except String Nat :=
  match firstIdx n.neigh next with
  | some i => .ok i
  | none => .error nodeNotFoundMsg

/-- Node.delNeighbor: looks the other node up with NodeIndex; on success
removes position i from both parallel arrays, on failure leaves the node
unchanged and returns the NodeIndex error. -/
def RNode.delNeighbor (n : RNode) (n2 : Nat) : RNode × Option String :=
  match n.NodeIndex n2 with
  | .error e => (n, some e)
  | .ok i => ({ n with br := n.br.eraseIdx i, neigh := n.neigh.eraseIdx i }, none)

/-- The test "e.right == n" of Node.Parent and Node.ParentEdge, on edge
identifiers. -/
def isParentEdge (edges : List REdge) (selfId e : Nat) : Bool :=
  (edges.getD e default).right == selfId

/-- The scan of Node.Parent over the branch array; the accumulator
mirrors the local variable n2 of the Go loop, and a second match raises
the more-than-one-parent error at once. -/
def parentScan (edges : List REdge) (selfId : Nat) : List Nat → Option Nat → Except String Nat
  | [], none => .error noParentMsg
  | [], some x => .ok x
  | e :: rest, acc =>
    if isParentEdge edges selfId e then
      match acc with
      | some _ => .error multiParentMsg
      | none => parentScan edges selfId rest (some (edges.getD e default).left)
    else parentScan edges selfId rest acc

/-- Node.Parent. The receiver is identified by selfId; the function
reads the node and the edge arena and modifies neither. -/
def RNode.Parent (n : RNode) (edges : List REdge) (selfId : Nat) : Except String Nat :=
  parentScan edges selfId n.br none

/-- The scan of Node.ParentEdge; identical to the Parent scan except
that the accumulator keeps the edge identifier. -/
def parentEdgeScan (edges : List REdge) (selfId : Nat) : List Nat → Option Nat → Except String Nat
  | [], none => .error noParentMsg
  | [], some x => .ok x
  | e :: rest, acc =>
    if isParentEdge edges selfId e then
      match acc with
      | some _ => .error multiParentMsg
      | none => parentEdgeScan edges selfId rest (some e)
    else parentEdgeScan edges selfId rest acc

/-- Node.ParentEdge. -/
def RNode.ParentEdge (n : RNode) (edges : List REdge) (selfId : Nat) : Except String Nat :=
  parentEdgeScan edges selfId n.br none

/-- The two arenas a rendering traversal reads. -/
structure RTree where
  nodes : List RNode
  edges : List REdge
deriving DecidableEq, Repr, Inhabited

def RTree.node (t : RTree) (i : Nat) : RNode := t.nodes.getD i default

def RTree.edge (t : RTree) (e : Nat) : REdge := t.edges.getD e default

/-- strconv.FormatFloat(v, 'f', 5, 64) for the integer-valued
annotations of the model: five zero decimals are appended. -/
def fmtF (v : Int) : String := toString v ++ ".00000"

/-- One iteration of the child loop of Node.Newick: the accumulator
carries the text written so far and the counter nbchild; a child equal
to the came-from parent is skipped, any other child contributes a
leading comma after the first, its own rendering, the support value when
not the sentinel, its comments in square brackets, and a colon and the
branch length when not the sentinel. -/
def newickStep (t : RTree) (render : Nat → Option Nat → String) (selfId : Nat)
    (parent : Option Nat) (acc : String × Nat) (p : Nat × Nat) : String × Nat :=
  if some p.1 = parent then acc
  else
    (acc.1 ++ (if acc.2 > 0 then "," else "")
      ++ render p.1 (some selfId)
      ++ (if (t.edge p.2).support ≠ -1 then fmtF (t.edge p.2).support else "")
      ++ ((t.node p.1).comment.foldl (fun a c => a ++ "[" ++ c ++ "]") "")
      ++ (if (t.edge p.2).length ≠ -1 then ":" ++ fmtF (t.edge p.2).length else ""),
     acc.2 + 1)

/-- Node.Newick: the recursive rendering of node.go lines 110-144. The
fuel argument bounds the recursion depth; the Go recursion terminates
exactly because a well-formed tree is acyclic, and every theorem below
uses enough fuel for the tree at hand. Opening and closing parentheses
are written iff the node has more than one entry in its neighbour array,
and the node's own name is written last. -/
def newick (t : RTree) : Nat → Nat → Option Nat → String
  | 0, _, _ => ""
  | fuel + 1, i, parent =>
    let n := t.node i
    (if n.neigh.length > 0 then
       (if n.neigh.length > 1 then "(" else "")
       ++ ((n.neigh.zip n.br).foldl (newickStep t (fun j pr => newick t fuel j pr) i parent) ("", 0)).1
       ++ (if n.neigh.length > 1 then ")" else "")
     else "") ++ n.name

/-- The child loop of Node.Newick in isolation: the text the loop writes
at a node, children rendered with the given fuel. -/
def newickChildren (t : RTree) (fuel : Nat) (i : Nat) (parent : Option Nat) : String :=
  (((t.node i).neigh.zip (t.node i).br).foldl
    (newickStep t (fun j pr => newick t fuel j pr) i parent) ("", 0)).1

/-! Helper lemmas about the NodeIndex scan. -/

theorem firstIdx_eq_none {l : List Nat} {y : Nat} : firstIdx l y = none ↔ y ∉ l := by
  induction l with
  | nil => simp [firstIdx]
  | cons x xs ih =>
    by_cases h : x = y
    · subst h
      simp [firstIdx]
    · simp [firstIdx, h, Option.map_eq_none', ih, Ne.symm h]

theorem firstIdx_lt {l : List Nat} {y i : Nat} (h : firstIdx l y = some i) : i < l.length := by
  induction l generalizing i with
  | nil => simp [firstIdx] at h
  | cons x xs ih =>
    by_cases hx : x = y
    · simp only [firstIdx, if_pos hx, Option.some_inj] at h
      simp [← h]
    · simp only [firstIdx, if_neg hx, Option.map_eq_some'] at h
      obtain ⟨j, hj, rfl⟩ := h
      have := ih hj
      simp only [List.length_cons]
      omega

theorem firstIdx_erase_of_count_one {l : List Nat} {y i : Nat}
    (hc : l.count y = 1) (h : firstIdx l y = some i) : y ∉ l.eraseIdx i := by
  induction l generalizing i with
  | nil => simp [firstIdx] at h
  | cons x xs ih =>
    by_cases hx : x = y
    · subst hx
      simp [firstIdx] at h
      subst h
      simp only [List.eraseIdx_cons_zero]
      rw [List.count_cons_self] at hc
      exact List.count_eq_zero.mp (by omega)
    · simp [firstIdx, hx, Option.map_eq_some'] at h
      obtain ⟨j, hj, rfl⟩ := h
      rw [List.count_cons_of_ne (fun hyx => hx hyx.symm)] at hc
      simp only [List.eraseIdx_cons_succ, List.mem_cons, not_or]
      exact ⟨fun hyx => hx hyx.symm, ih hc hj⟩

/-- A node whose neighbour array holds the same node twice, through two
parallel edges 7 and 8. -/
def dupNode : RNode := { name := "", comment := [], neigh := [1, 1], br := [7, 8], depth := 0 }

/-- Claim C3 counterexample: in a node whose neighbour array holds the
same node twice (two parallel edges), delNeighbor succeeds and removes
one occurrence, but a subsequent NodeIndex still finds the other
occurrence and returns index 0 instead of the not-found error. -/
theorem C3_counterexample :
    (1 ∈ dupNode.neigh) ∧ (dupNode.delNeighbor 1).2 = none
      ∧ (dupNode.delNeighbor 1).1.NodeIndex 1 = .ok 0 :=
  ⟨by decide, rfl, rfl⟩

/-- Claim C3 (amended): with the parallel arrays in sync, if m occurs
exactly once in n's neighbour array then delNeighbor succeeds, a
subsequent NodeIndex fails with the not-found error, and both the edge
list and the neighbour list have shrunk by exactly one; if m is not
adjacent at all, delNeighbor fails with the not-found error and leaves
the node unchanged. -/
theorem C3_del_neighbor (n : RNode) (m : Nat) (hinv : n.neigh.length = n.br.length) :
    (n.neigh.count m = 1 →
      (n.delNeighbor m).2 = none
        ∧ (n.delNeighbor m).1.NodeIndex m = .error nodeNotFoundMsg
        ∧ (n.delNeighbor m).1.br.length + 1 = n.br.length
        ∧ (n.delNeighbor m).1.neigh.length + 1 = n.neigh.length)
    ∧ (m ∉ n.neigh → n.delNeighbor m = (n, some nodeNotFoundMsg)) := by
  constructor
  · intro hc
    rcases hfi : firstIdx n.neigh m with _ | i
    · exact absurd (firstIdx_eq_none.mp hfi)
        (by simp [← List.count_pos_iff, hc])
    · have hlt : i < n.neigh.length := firstIdx_lt hfi
      have hltbr : i < n.br.length := hinv ▸ hlt
      have hdel : n.delNeighbor m =
          ({ n with br := n.br.eraseIdx i, neigh := n.neigh.eraseIdx i }, none) := by
        simp [RNode.delNeighbor, RNode.NodeIndex, hfi]
      refine ⟨by simp [hdel], ?_, ?_, ?_⟩
      · have : m ∉ n.neigh.eraseIdx i := firstIdx_erase_of_count_one hc hfi
        simp [hdel, RNode.NodeIndex, firstIdx_eq_none.mpr this]
      · simp [hdel, List.length_eraseIdx, hltbr]
        omega
      · simp [hdel, List.length_eraseIdx, hlt]
        omega
  · intro hm
    simp [RNode.delNeighbor, RNode.NodeIndex, firstIdx_eq_none.mpr hm]

/-- Claim C3 witness: the amended theorem applied to a concrete node
with neighbour array [4, 9] and branch array [0, 1]. -/
theorem C3_del_neighbor_witness :
    let n : RNode := { name := "x", comment := [], neigh := [4, 9], br := [0, 1], depth := 0 }
    (n.neigh.count 9 = 1 →
      (n.delNeighbor 9).2 = none
        ∧ (n.delNeighbor 9).1.NodeIndex 9 = .error nodeNotFoundMsg
        ∧ (n.delNeighbor 9).1.br.length + 1 = n.br.length
        ∧ (n.delNeighbor 9).1.neigh.length + 1 = n.neigh.length)
    ∧ (9 ∉ n.neigh → n.delNeighbor 9 = (n, some nodeNotFoundMsg)) :=
  C3_del_neighbor { name := "x", comment := [], neigh := [4, 9], br := [0, 1], depth := 0 } 9 rfl

/-- Claim C4: the neighbour and branch arrays have equal length and stay
index-aligned under every operation on RNode: addChild appends one entry
to each, delNeighbor erases the same index from each, and the remaining
operations touch neither array. -/
theorem C4_parallel_invariant (n : RNode) (c e m : Nat) (s cm : String) (d : Int)
    (hinv : n.neigh.length = n.br.length) :
    ((n.addChild c e).neigh.length = n.neigh.length + 1
      ∧ (n.addChild c e).br.length = n.br.length + 1
      ∧ (n.addChild c e).neigh.length = (n.addChild c e).br.length)
    ∧ ((n.delNeighbor m).1.neigh.length = (n.delNeighbor m).1.br.length
      ∧ ∀ i, n.NodeIndex m = .ok i →
          (n.delNeighbor m).1.neigh = n.neigh.eraseIdx i
            ∧ (n.delNeighbor m).1.br = n.br.eraseIdx i)
    ∧ ((n.SetName s).neigh.length = (n.SetName s).br.length
      ∧ (n.AddComment cm).neigh.length = (n.AddComment cm).br.length
      ∧ (n.SetDepth d).neigh.length = (n.SetDepth d).br.length) := by
  refine ⟨⟨by simp [RNode.addChild], by simp [RNode.addChild], by simp [RNode.addChild, hinv]⟩,
    ⟨?_, ?_⟩, by simp [RNode.SetName, hinv], by simp [RNode.AddComment, hinv],
    by simp [RNode.SetDepth, hinv]⟩
  · rcases hfi : firstIdx n.neigh m with _ | i
    · simp [RNode.delNeighbor, RNode.NodeIndex, hfi, hinv]
    · have hlt : i < n.neigh.length := firstIdx_lt hfi
      simp [RNode.delNeighbor, RNode.NodeIndex, hfi, List.length_eraseIdx, hlt, hinv ▸ hlt]
      omega
  · intro i hi
    rcases hfi : firstIdx n.neigh m with _ | j <;>
      simp [RNode.NodeIndex, hfi] at hi
    subst hi
    simp [RNode.delNeighbor, RNode.NodeIndex, hfi]

/-- Claim C4 witness: the invariant theorem applied to a concrete node. -/
theorem C4_parallel_invariant_witness :
    let n : RNode := { name := "r", comment := [], neigh := [2], br := [5], depth := 0 }
    ((n.addChild 3 6).neigh.length = n.neigh.length + 1
      ∧ (n.addChild 3 6).br.length = n.br.length + 1
      ∧ (n.addChild 3 6).neigh.length = (n.addChild 3 6).br.length)
    ∧ ((n.delNeighbor 2).1.neigh.length = (n.delNeighbor 2).1.br.length
      ∧ ∀ i, n.NodeIndex 2 = .ok i →
          (n.delNeighbor 2).1.neigh = n.neigh.eraseIdx i
            ∧ (n.delNeighbor 2).1.br = n.br.eraseIdx i)
    ∧ ((n.SetName "q").neigh.length = (n.SetName "q").br.length
      ∧ (n.AddComment "c").neigh.length = (n.AddComment "c").br.length
      ∧ (n.SetDepth 1).neigh.length = (n.SetDepth 1).br.length) :=
  C4_parallel_invariant { name := "r", comment := [], neigh := [2], br := [5], depth := 0 }
    3 6 2 "q" "c" 1 rfl

/-- The Parent scan equals a case split on the sublist of branch
identifiers whose edge has the node as right endpoint. -/
theorem parentScan_eq (edges : List REdge) (selfId : Nat) (l : List Nat) : ∀ acc : Option Nat,
    parentScan edges selfId l acc =
      match acc, l.filter (isParentEdge edges selfId) with
      | none, [] => .error noParentMsg
      | some x, [] => .ok x
      | none, [e] => .ok (edges.getD e default).left
      | none, _ :: _ :: _ => .error multiParentMsg
      | some _, _ :: _ => .error multiParentMsg := by
  induction l with
  | nil => intro acc; rcases acc <;> rfl
  | cons e rest ih =>
    intro acc
    rw [List.filter_cons]
    by_cases h : isParentEdge edges selfId e
    · rcases acc with _ | x
      · simp only [parentScan, if_pos h, h, ite_true]
        rw [ih (some (edges.getD e default).left)]
        rcases hf : rest.filter (isParentEdge edges selfId) with _ | ⟨f, fs⟩ <;> rfl
      · simp only [parentScan, if_pos h, h, ite_true]
    · have hb : isParentEdge edges selfId e = false := by simpa using h
      rcases acc with _ | x <;>
        simp only [parentScan, if_neg h, hb, Bool.false_eq_true, ite_false, ih]

/-- The ParentEdge scan, characterised the same way. -/
theorem parentEdgeScan_eq (edges : List REdge) (selfId : Nat) (l : List Nat) : ∀ acc : Option Nat,
    parentEdgeScan edges selfId l acc =
      match acc, l.filter (isParentEdge edges selfId) with
      | none, [] => .error noParentMsg
      | some x, [] => .ok x
      | none, [e] => .ok e
      | none, _ :: _ :: _ => .error multiParentMsg
      | some _, _ :: _ => .error multiParentMsg := by
  induction l with
  | nil => intro acc; rcases acc <;> rfl
  | cons e rest ih =>
    intro acc
    rw [List.filter_cons]
    by_cases h : isParentEdge edges selfId e
    · rcases acc with _ | x
      · simp only [parentEdgeScan, if_pos h, h, ite_true]
        rw [ih (some e)]
        rcases hf : rest.filter (isParentEdge edges selfId) with _ | ⟨f, fs⟩ <;> rfl
      · simp only [parentEdgeScan, if_pos h, h, ite_true]
    · have hb : isParentEdge edges selfId e = false := by simpa using h
      rcases acc with _ | x <;>
        simp only [parentEdgeScan, if_neg h, hb, Bool.false_eq_true, ite_false, ih]

/-- Claim C5: Parent and ParentEdge scan the incident edges for those
whose right endpoint is the node itself; with no such edge both fail
with the no-parent error, with more than one both fail with the
more-than-one-parent error, and with exactly one Parent returns its left
endpoint while ParentEdge returns the edge. The embedding is purely
functional, matching the Go methods, which only read the node. -/
theorem C5_parent_query (n : RNode) (edges : List REdge) (selfId : Nat) :
    match n.br.filter (isParentEdge edges selfId) with
    | [] => n.Parent edges selfId = .error noParentMsg
        ∧ n.ParentEdge edges selfId = .error noParentMsg
    | [e] => n.Parent edges selfId = .ok (edges.getD e default).left
        ∧ n.ParentEdge edges selfId = .ok e
    | _ :: _ :: _ => n.Parent edges selfId = .error multiParentMsg
        ∧ n.ParentEdge edges selfId = .error multiParentMsg := by
  unfold RNode.Parent RNode.ParentEdge
  rw [parentScan_eq, parentEdgeScan_eq]
  rcases hf : n.br.filter (isParentEdge edges selfId) with _ | ⟨e, _ | ⟨f, fs⟩⟩ <;>
    exact ⟨rfl, rfl⟩

/-- Claim C1 (amended): at every node the Newick rendering visits, the
renderings of the traversal children are wrapped in parentheses iff the
node's whole neighbour array has more than one entry, the came-from
parent included, and the node's own name follows. The condition is not
the number of traversal children: the counterexample below is a visited
node with a single traversal child whose rendering is parenthesized. -/
theorem C1_paren_rule (t : RTree) (fuel i : Nat) (parent : Option Nat) :
    newick t (fuel + 1) i parent =
      (if (t.node i).neigh.length > 1
        then "(" ++ newickChildren t fuel i parent ++ ")"
        else newickChildren t fuel i parent) ++ (t.node i).name := by
  show (if (t.node i).neigh.length > 0 then _ else _) ++ (t.node i).name = _
  rcases hn : (t.node i).neigh with _ | ⟨x, _ | ⟨y, ys⟩⟩
  · simp [newickChildren, hn]
  · simp [newickChildren, hn]
  · simp only [newickChildren, hn, List.length_cons]
    norm_num

/-- The tree rendered by the Newick text ((C)B)A: node 1 (B) has the
came-from parent 0 (A) and the single traversal child 2 (C). -/
def exChain : RTree :=
  ⟨[{ name := "A", neigh := [1], br := [0] },
    { name := "B", neigh := [0, 2], br := [0, 1] },
    { name := "C", neigh := [1], br := [1] }],
   [⟨0, 1, -1, -1⟩, ⟨1, 2, -1, -1⟩]⟩

/-- Claim C1 counterexample: node 1 of exChain, visited with came-from
parent 0, has exactly one traversal child (one neighbour differing from
the parent), yet its child's rendering is wrapped in parentheses,
because the neighbour array including the parent has two entries. -/
theorem C1_counterexample :
    newick exChain 5 1 (some 0) = "(C)B"
      ∧ ((exChain.node 1).neigh.filter (fun c => !((some c : Option Nat) == some 0))).length = 1 :=
  ⟨rfl, rfl⟩

/-!
Part 2 embeds the Nexus parser of io/nexus/nexus_parser.go. The scanner
(io/nexus/nexus_scanner.go) is not under src; the parser is therefore
embedded as a function of the token stream it consumes, a list of typed
tokens, which is the interface the Go parser sees. Reading a token pops
it from the list, and reading past the end yields the end-of-file token,
matching the persistent EOF of the scanner described by the spec. Every
Go loop takes a fuel argument counting its remaining iterations: the Go
parser loops consume at least one token per iteration except the TREE
body loop, which spins forever when the stream ends inside a tree body,
and running out of fuel is reported with a distinguished error marker
standing for that divergence. Every theorem supplies fuel beyond the
length of the stream at hand, where the marker is unreachable.
-/

/-- The token kinds the parser inspects, from nexus_parser.go. -/
inductive TokKind where
  | illegal
  | eofTok
  | ws
  | eol
  | eoc
  | ident
  | numeric
  | equalTok
  | nexusTok
  | beginTok
  | endTok
  | taxa
  | trees
  | tree
  | data
  | dimensions
  | format
  | matrix
  | ntax
  | nchar
  | datatype
  | missing
  | gap
  | taxlabels
deriving DecidableEq, Repr

/-- A token: a kind and its literal text. -/
structure Token where
  kind : TokKind
  lit : String
deriving DecidableEq, Repr

/-- Every error construction site of the parser and of its modelled
collaborators, one constructor per site; the Go code builds error values
with distinct message formats at these sites. -/
inductive PErr where
  | outOfFuel
  | notNexus (lit : String)
  | illegalTok (lit : String)
  | beginNoSemicolon (lit : String)
  | endNoSemicolon
  | eofInTaxa
  | eofInTrees
  | eofInData
  | eofInCommand
  | eofInBlock
  | unknownInTaxlabels (lit : String)
  | expectedTreeName (lit : String)
  | expectedEqualTree (lit : String)
  | expectedTree (lit : String)
  | parseIntErr (lit : String)
  | expectedEqualKey (key lit : String)
  | expectedIdentKey (key lit : String)
  | expectedEqualDatatype (lit : String)
  | expectedIdentDatatype (lit : String)
  | expectedEqualMissing (lit : String)
  | expectedIdentMissing (lit : String)
  | singleCharMissing (lit : String)
  | expectedEqualGap (lit : String)
  | expectedIdentGap (lit : String)
  | singleCharGap (lit : String)
  | expectedSeqAfterIdent (name lit : String)
  | expectedSeqIdent (lit : String)
  | gapMissing (gap missing : Char)
  | unknownDatatype (datatype : String)
  | ntaxMismatch (found : Nat) (ntax : Int)
  | ncharMismatch (idx len : Nat) (nchar : Int)
  | addSequenceRejected (name : String)
  | seqNameNotInTaxa (name : String)
  | taxaNotInAlignment
  | newickErr
  | tipNotInTaxa (idx : Nat) (tip : String)
  | taxaNotInTree (idx : Nat)
deriving DecidableEq, Repr

/-- scanIgnoreWhitespace: reads the next token and, when it is a
whitespace token, reads one more (the Go helper skips exactly one). An
empty stream yields the end-of-file token. -/
def scanIW : List Token → Token × List Token
  | [] => (⟨.eofTok, ""⟩, [])
  | t :: rest =>
    if t.kind = .ws then
      match rest with
      | [] => (⟨.eofTok, ""⟩, [])
      | t2 :: rest2 => (t2, rest2)
    else (t, rest)

/-- parseUnsupportedCommand: skips tokens up to the command terminator;
an illegal token or the end of file is an error. -/
def parseUnsupportedCommand : Nat → List Token → Option PErr × List Token
  | 0, toks => (some .outOfFuel, toks)
  | fuel + 1, toks =>
    let (t, r) := scanIW toks
    match t.kind with
    | .illegal => (some (.illegalTok t.lit), r)
    | .eofTok => (some .eofInCommand, r)
    | .eoc => (none, r)
    | _ => parseUnsupportedCommand fuel r

/-- parseUnsupportedKey: expects an equal sign and then an identifier or
a number. -/
def parseUnsupportedKey (key : String) (toks : List Token) : Option PErr × List Token :=
  let (t, r) := scanIW toks
  if t.kind = .equalTok then
    let (t2, r2) := scanIW r
    if t2.kind = .ident ∨ t2.kind = .numeric then (none, r2)
    else (some (.expectedIdentKey key t2.lit), r2)
  else (some (.expectedEqualKey key t.lit), r)

/-- parseUnsupportedBlock: skips tokens up to END followed by the
command terminator. -/
def parseUnsupportedBlock : Nat → List Token → Option PErr × List Token
  | 0, toks => (some .outOfFuel, toks)
  | fuel + 1, toks =>
    let (t, r) := scanIW toks
    match t.kind with
    | .illegal => (some (.illegalTok t.lit), r)
    | .eofTok => (some .eofInBlock, r)
    | .endTok =>
      let (t2, r2) := scanIW r
      (if t2.kind = .eoc then none else some .endNoSemicolon, r2)
    | _ => parseUnsupportedBlock fuel r

/-- The TAXLABELS command loop of parseTaxa: identifiers are inserted
into the label set (a Go map, so duplicates collapse) until the command
terminator; any other token is an error. -/
def taxlabelsLoop : Nat → List String → List Token → List String × Option PErr × List Token
  | 0, s, toks => (s, some .outOfFuel, toks)
  | fuel + 1, s, toks =>
    let (t, r) := scanIW toks
    match t.kind with
    | .eoc => (s, none, r)
    | .ident => taxlabelsLoop fuel (if s.contains t.lit then s else s ++ [t.lit]) r
    | _ => (s, some (.unknownInTaxlabels t.lit), r)

/-- parseTaxa: the TAXA block loop. -/
def parseTaxa : Nat → List String → List Token → List String × Option PErr × List Token
  | 0, s, toks => (s, some .outOfFuel, toks)
  | fuel + 1, s, toks =>
    let (t, r) := scanIW toks
    match t.kind with
    | .eol => parseTaxa fuel s r
    | .illegal => (s, some (.illegalTok t.lit), r)
    | .eofTok => (s, some .eofInTaxa, r)
    | .endTok =>
      let (t2, r2) := scanIW r
      (s, if t2.kind = .eoc then none else some .endNoSemicolon, r2)
    | .taxlabels =>
      match taxlabelsLoop fuel s r with
      | (s2, some e, r2) => (s2, some e, r2)
      | (s2, none, r2) => parseTaxa fuel s2 r2
    | _ =>
      match parseUnsupportedCommand fuel r with
      | (some e, r2) => (s, some e, r2)
      | (none, r2) => parseTaxa fuel s r2

/-- The TREE body loop of parseTrees: tokens are appended to the tree
string until the command terminator; a non-identifier token records an
error and raises the stop flag, but the Go loop still appends its
literal and keeps consuming. When the stream ends inside a body the Go
loop never terminates; here the fuel runs out. -/
def treeBody : Nat → List Token → String → Option PErr → Bool →
    String × Option PErr × Bool × List Token
  | 0, toks, acc, _, _ => (acc, some .outOfFuel, true, toks)
  | fuel + 1, toks, acc, err, stop =>
    let (t, r) := scanIW toks
    if t.kind = .eoc then (acc, err, stop, r)
    else
      treeBody fuel r (acc ++ t.lit)
        (if t.kind = .ident then err else some (.expectedTree t.lit))
        (stop || !(t.kind == TokKind.ident))

/-- parseTrees: the TREES block loop. A TREE command reads the name, the
equal sign and the body; the collected name and body are appended to the
accumulators even on the error path, as in the Go code, and the loop
then stops iff the stop flag was raised. -/
def parseTrees : Nat → List String → List String → List Token →
    List String × List String × Option PErr × List Token
  | 0, tn, ts, toks => (tn, ts, some .outOfFuel, toks)
  | fuel + 1, tn, ts, toks =>
    let (t, r) := scanIW toks
    match t.kind with
    | .eol => parseTrees fuel tn ts r
    | .illegal => (tn, ts, some (.illegalTok t.lit), r)
    | .eofTok => (tn, ts, some .eofInTrees, r)
    | .endTok =>
      let (t2, r2) := scanIW r
      (tn, ts, if t2.kind = .eoc then none else some .endNoSemicolon, r2)
    | .tree =>
      let (t2, r2) := scanIW r
      let e1 : Option PErr := if t2.kind = .ident then none else some (.expectedTreeName t2.lit)
      let s1 : Bool := !(t2.kind == TokKind.ident)
      let (t3, r3) := scanIW r2
      let e2 : Option PErr := if t3.kind = .equalTok then e1 else some (.expectedEqualTree t3.lit)
      let s2 : Bool := s1 || !(t3.kind == TokKind.equalTok)
      match treeBody fuel r3 "" e2 s2 with
      | (treeStr, e3, s3, r4) =>
        if s3 then (tn ++ [t2.lit], ts ++ [treeStr], e3, r4)
        else parseTrees fuel (tn ++ [t2.lit]) (ts ++ [treeStr]) r4
    | _ =>
      match parseUnsupportedCommand fuel r with
      | (some e, r2) => (tn, ts, some e, r2)
      | (none, r2) => parseTrees fuel tn ts r2

/-- The mutable state of parseData. -/
structure DState where
  names : List String := []
  seqs : List String := []
  nchar : Int := -1
  ntax : Int := -1
  datatype : String := "dna"
  missing : Char := '*'
  gap : Char := '-'
deriving DecidableEq, Repr

/-- strconv.ParseInt with base 10: an optional sign followed by digits
(the int64 range is not modelled). -/
def parseIntGo (s : String) : Option Int := s.toInt?

/-- The DIMENSIONS command loop. In the NTAX and NCHAR cases the Go code
records errors for a missing equal sign or a non-number token but then
unconditionally overwrites the error variable with the ParseInt result,
so only the ParseInt error is observable; the earlier checks only raise
the stop flag. On a hard error the DATA loop stops too; on a raised
flag with a successful ParseInt the DATA loop continues. -/
def dimsLoop : Nat → DState → List Token → DState × Option PErr × List Token
  | 0, st, toks => (st, some .outOfFuel, toks)
  | fuel + 1, st, toks =>
    let (t, r) := scanIW toks
    match t.kind with
    | .eoc => (st, none, r)
    | .ntax =>
      let (t2, r2) := scanIW r
      let (t3, r3) := scanIW r2
      let pe := parseIntGo t3.lit
      let st2 := { st with ntax := pe.getD 0 }
      if t2.kind = .equalTok ∧ t3.kind = .numeric ∧ pe.isSome then dimsLoop fuel st2 r3
      else (st2, if pe.isSome then none else some (.parseIntErr t3.lit), r3)
    | .nchar =>
      let (t2, r2) := scanIW r
      let (t3, r3) := scanIW r2
      let pe := parseIntGo t3.lit
      let st2 := { st with nchar := pe.getD 0 }
      if t2.kind = .equalTok ∧ t3.kind = .numeric ∧ pe.isSome then dimsLoop fuel st2 r3
      else (st2, if pe.isSome then none else some (.parseIntErr t3.lit), r3)
    | _ =>
      match parseUnsupportedKey t.lit r with
      | (some e, r2) => (st, some e, r2)
      | (none, r2) => dimsLoop fuel st r2

/-- The FORMAT command loop. The MISSING and GAP cases assign the first
character of the literal after the three checks regardless of their
outcome, as the Go code does; on an empty literal the Go expression
panics (index out of range), modelled as keeping the previous character.
The recorded error is the last failing check, matching the Go
assignments. Lengths of literals are counted in characters; the Go byte
length agrees on ASCII input. -/
def formatLoop : Nat → DState → List Token → DState × Option PErr × List Token
  | 0, st, toks => (st, some .outOfFuel, toks)
  | fuel + 1, st, toks =>
    let (t, r) := scanIW toks
    match t.kind with
    | .eoc => (st, none, r)
    | .datatype =>
      let (t2, r2) := scanIW r
      let (t3, r3) := scanIW r2
      let st2 := if t3.kind = .ident then { st with datatype := t3.lit } else st
      if t2.kind = .equalTok ∧ t3.kind = .ident then formatLoop fuel st2 r3
      else
        (st2,
         if t3.kind ≠ .ident then some (.expectedIdentDatatype t3.lit)
         else some (.expectedEqualDatatype t2.lit), r3)
    | .missing =>
      let (t2, r2) := scanIW r
      let (t3, r3) := scanIW r2
      let st2 := { st with missing := t3.lit.toList.headD st.missing }
      if t2.kind = .equalTok ∧ t3.kind = .ident ∧ t3.lit.length = 1 then formatLoop fuel st2 r3
      else
        (st2,
         if t3.lit.length ≠ 1 then some (.singleCharMissing t3.lit)
         else if t3.kind ≠ .ident then some (.expectedIdentMissing t3.lit)
         else some (.expectedEqualMissing t2.lit), r3)
    | .gap =>
      let (t2, r2) := scanIW r
      let (t3, r3) := scanIW r2
      let st2 := { st with gap := t3.lit.toList.headD st.gap }
      if t2.kind = .equalTok ∧ t3.kind = .ident ∧ t3.lit.length = 1 then formatLoop fuel st2 r3
      else
        (st2,
         if t3.lit.length ≠ 1 then some (.singleCharGap t3.lit)
         else if t3.kind ≠ .ident then some (.expectedIdentGap t3.lit)
         else some (.expectedEqualGap t2.lit), r3)
    | _ =>
      match parseUnsupportedKey t.lit r with
      | (some e, r2) => (st, some e, r2)
      | (none, r2) => formatLoop fuel st r2

/-- One matrix row: identifier tokens are concatenated into the sequence
until an end of line; any other token is an error. -/
def matrixSeqLoop : Nat → String → String → List Token → String × Option PErr × List Token
  | 0, _, acc, toks => (acc, some .outOfFuel, toks)
  | fuel + 1, name, acc, toks =>
    let (t, r) := scanIW toks
    match t.kind with
    | .ident => matrixSeqLoop fuel name (acc ++ t.lit) r
    | .eol => (acc, none, r)
    | _ => (acc, some (.expectedSeqAfterIdent name t.lit), r)

/-- The MATRIX command loop: each identifier opens a row whose name and
(initially empty) sequence are appended before the row is read, as in
the Go code; the command terminator ends the matrix. -/
def matrixLoop : Nat → List String → List String → List Token →
    List String × List String × Option PErr × List Token
  | 0, ns, ss, toks => (ns, ss, some .outOfFuel, toks)
  | fuel + 1, ns, ss, toks =>
    let (t, r) := scanIW toks
    match t.kind with
    | .ident =>
      match matrixSeqLoop fuel t.lit "" r with
      | (sq, some e, r2) => (ns ++ [t.lit], ss ++ [sq], some e, r2)
      | (sq, none, r2) => matrixLoop fuel (ns ++ [t.lit]) (ss ++ [sq]) r2
    | .eol => matrixLoop fuel ns ss r
    | .eoc => (ns, ss, none, r)
    | _ => (ns, ss, some (.expectedSeqIdent t.lit), r)

/-- parseData: the DATA/CHARACTERS block loop. -/
def parseData : Nat → DState → List Token → DState × Option PErr × List Token
  | 0, st, toks => (st, some .outOfFuel, toks)
  | fuel + 1, st, toks =>
    let (t, r) := scanIW toks
    match t.kind with
    | .eol => parseData fuel st r
    | .illegal => (st, some (.illegalTok t.lit), r)
    | .eofTok => (st, some .eofInData, r)
    | .endTok =>
      let (t2, r2) := scanIW r
      (st, if t2.kind = .eoc then none else some .endNoSemicolon, r2)
    | .dimensions =>
      match dimsLoop fuel st r with
      | (st2, some e, r2) => (st2, some e, r2)
      | (st2, none, r2) => parseData fuel st2 r2
    | .format =>
      match formatLoop fuel st r with
      | (st2, some e, r2) => (st2, some e, r2)
      | (st2, none, r2) => parseData fuel st2 r2
    | .matrix =>
      match matrixLoop fuel st.names st.seqs r with
      | (ns, ss, some e, r2) => ({ st with names := ns, seqs := ss }, some e, r2)
      | (ns, ss, none, r2) => parseData fuel { st with names := ns, seqs := ss } r2
    | _ =>
      match parseUnsupportedCommand fuel r with
      | (some e, r2) => (st, some e, r2)
      | (none, r2) => parseData fuel st r2

/-- A character that can belong to a name inside a Newick string. -/
def nwkNameChar (c : Char) : Bool :=
  !(c == '(' || c == ')' || c == ',' || c == ':' || c == ';' || c == '[' || c == ']')

/-- Modelled from the spec: the character scan of the embedded Newick
sub-parser (io/newick of this repository, not under src). It tracks
whether a starting name would be in tip position (right after an opening
parenthesis or a comma), skips bracketed comments, treats runs after a
colon as branch lengths, and stops at the semicolon; it returns the tip
names in reading order, the final parenthesis depth and whether the
semicolon was reached. -/
def tipScan : List Char → Bool → Bool → String → Bool → List String → Int →
    List String × Int × Bool
  | [], _, _, run, runTip, acc, depth =>
    ((if !run.isEmpty && runTip then acc ++ [run] else acc), depth, false)
  | c :: cs, tipPos, inC, run, runTip, acc, depth =>
    if inC then
      if c = ']' then tipScan cs tipPos false run runTip acc depth
      else tipScan cs tipPos true run runTip acc depth
    else if c = '[' then tipScan cs tipPos true run runTip acc depth
    else if nwkNameChar c then
      if run.isEmpty then tipScan cs tipPos false (String.singleton c) tipPos acc depth
      else tipScan cs tipPos false (run.push c) runTip acc depth
    else
      let acc2 := if !run.isEmpty && runTip then acc ++ [run] else acc
      if c = '(' then tipScan cs true false "" false acc2 (depth + 1)
      else if c = ')' then tipScan cs false false "" false acc2 (depth - 1)
      else if c = ',' then tipScan cs true false "" false acc2 depth
      else if c = ':' then tipScan cs false false "" false acc2 depth
      else if c = ';' then (acc2, depth, true)
      else (acc2, depth, false)

/-- Modelled from the spec: the embedded Newick sub-parser accepts a
string terminated by a semicolon and returns a built tree or a parse
error; for the validation logic in scope a tree is represented by the
list of its tip names. Unbalanced parentheses or a missing terminator
are a parse error. -/
def newickParse (s : String) : Except PErr (List String) :=
  match tipScan s.toList false false "" false [] 0 with
  | (tips, depth, sawSemi) => if depth = 0 ∧ sawSemi then .ok tips else .error .newickErr

/-- Modelled from the spec: the alignment collaborator (the external
goalign library) stores name and sequence rows. -/
abbrev Align : Type := List (String × String)

/-- Character-wise lowercasing (strings.ToLower on ASCII input). -/
def lowerStr (s : String) : String := String.mk (s.toList.map Char.toLower)

/-- Modelled from the spec: align.AlphabetFromString resolves the dna,
rna and protein datatypes, case insensitively; anything else is the
unknown alphabet. -/
def knownAlphabet (s : String) : Bool :=
  lowerStr s == "dna" || lowerStr s == "rna" || lowerStr s == "protein"

/-- Modelled from the spec: the character set the resolved alphabet
accepts; AddSequence fails if the alphabet rejects a character. -/
def alphaAccept (dt : String) (c : Char) : Bool :=
  if lowerStr dt == "protein" then "ABCDEFGHIKLMNPQRSTVWYZX*-.".toList.contains c
  else "ACGTURYSWKMBDHVNX*-.".toList.contains c

/-- The Nexus document: an optional alignment and the named trees, a
tree being represented by its tip names (io/nexus/nexus.go is not under
src; the aggregate follows the spec's data model). -/
structure Nexus where
  al : Option Align := none
  trees : List (String × List String) := []
deriving DecidableEq, Repr

/-- The per-sequence loop of Parse lines 132-139: each sequence must
match the declared character count unless that is the sentinel -1, and
is then handed to AddSequence under the name of the same index. The Go
code indexes names[i] and would panic if the sequences outnumbered the
names, which the parser never produces; out-of-range indexing is
modelled with the empty-string default. -/
def addSeqsLoop (accept : Char → Bool) (nchar : Int) (names : List String) :
    List String → Nat → Align → Align × Option PErr
  | [], _, al => (al, none)
  | s :: rest, i, al =>
    if (s.length : Int) ≠ nchar ∧ nchar ≠ -1 then (al, some (.ncharMismatch i s.length nchar))
    else if !(s.toList.all accept) then (al, some (.addSequenceRejected (names.getD i "")))
    else addSeqsLoop accept nchar names rest (i + 1) (al ++ [(names.getD i "", s)])

/-- The al.Iterate check of Parse lines 143-147: the error variable is
overwritten at each sequence name missing from the taxa set, so the last
offender is reported; iteration continues to the end. -/
def iterCheck (s : List String) (al : Align) : Option PErr :=
  al.foldl (fun acc p => if s.contains p.1 then acc else some (.seqNameNotInTaxa p.1)) none

/-- The per-tree loop of Parse lines 160-178: each collected tree string
is parsed by the embedded Newick parser with a semicolon appended; with
a declared taxa set, the first tip missing from the set aborts, then the
tip count must equal the set's size; accepted trees are added under the
name of the same index. -/
def treesFinal (taxlabels : Option (List String)) (tns : List String) :
    List String → Nat → List (String × List String) →
    List (String × List String) × Option PErr
  | [], _, acc => (acc, none)
  | s :: rest, i, acc =>
    match newickParse (s ++ ";") with
    | .error e => (acc, some e)
    | .ok tips =>
      match taxlabels with
      | some tl =>
        match tips.find? (fun tp => !(tl.contains tp)) with
        | some tp => (acc, some (.tipNotInTaxa i tp))
        | none =>
          if tips.length ≠ tl.length then (acc, some (.taxaNotInTree i))
          else treesFinal (some tl) tns rest (i + 1) (acc ++ [(tns.getD i "", tips)])
      | none => treesFinal none tns rest (i + 1) (acc ++ [(tns.getD i "", tips)])

/-- The mutable state of Parse before the post-loop validation: the Go
locals nchar and ntax start at zero (they are overwritten by a DATA
block, whose own defaults are the -1 sentinels), and the slices start
nil; a parsed block replaces them by non-nil values, possibly empty. -/
structure PState where
  nchar : Int := 0
  ntax : Int := 0
  datatype : String := "dna"
  missing : Char := '*'
  gap : Char := '-'
  taxlabels : Option (List String) := none
  names : Option (List String) := none
  seqs : Option (List String) := none
  treenames : Option (List String) := none
  treestrings : Option (List String) := none
deriving DecidableEq, Repr

/-- The tree part of the post-loop validation (Parse lines 159-179),
entered when both tree slices are non-nil. -/
def finalizeTrees (st : PState) (al : Option Align) : Option Nexus × Option PErr :=
  match st.treenames, st.treestrings with
  | some tns, some tss =>
    match treesFinal st.taxlabels tns tss 0 [] with
    | (_, some e) => (none, some e)
    | (trs, none) => (some { al := al, trees := trs }, none)
  | _, _ => (some { al := al, trees := [] }, none)

/-- The post-loop validation of Parse lines 119-180, run once the whole
document is consumed: first the gap and missing characters must be the
defaults; then, when an alignment was collected, the datatype must
resolve, the row count must match a declared NTAX, each row is checked
and added, and a declared taxa set is cross-checked against the row
names and its cardinality against the row count; then the collected
trees are parsed and cross-checked the same way. -/
def finalize (st : PState) : Option Nexus × Option PErr :=
  if st.gap ≠ '-' ∨ st.missing ≠ '*' then (none, some (.gapMissing st.gap st.missing))
  else
    match st.names, st.seqs with
    | some names, some seqs =>
      if !(knownAlphabet st.datatype) then (none, some (.unknownDatatype st.datatype))
      else if (names.length : Int) ≠ st.ntax ∧ st.ntax ≠ -1 then
        (none, some (.ntaxMismatch names.length st.ntax))
      else
        match addSeqsLoop (alphaAccept st.datatype) st.nchar names seqs 0 [] with
        | (_, some e) => (none, some e)
        | (al, none) =>
          match st.taxlabels with
          | some tl =>
            match iterCheck tl al with
            | some e => (none, some e)
            | none =>
              if al.length ≠ tl.length then (none, some .taxaNotInAlignment)
              else finalizeTrees st (some al)
          | none => finalizeTrees st (some al)
    | _, _ => finalizeTrees st none

/-- The block loop of Parse lines 76-117: illegal tokens abort, end of
file breaks into the post-loop validation, ends of line and any other
stray tokens are skipped, and a BEGIN token dispatches on the block name
after checking the terminator of the BEGIN command (the error message
carries the literal of the BEGIN token, as in the Go code). -/
def parseLoop : Nat → PState → List Token → Option Nexus × Option PErr
  | 0, _, _ => (none, some .outOfFuel)
  | fuel + 1, st, toks =>
    let (t, r) := scanIW toks
    match t.kind with
    | .illegal => (none, some (.illegalTok t.lit))
    | .eofTok => finalize st
    | .eol => parseLoop fuel st r
    | .beginTok =>
      let (t2, r2) := scanIW r
      let (t3, r3) := scanIW r2
      if t3.kind ≠ .eoc then (none, some (.beginNoSemicolon t.lit))
      else
        match t2.kind with
        | .taxa =>
          match parseTaxa fuel [] r3 with
          | (_, some e, _) => (none, some e)
          | (tl, none, r4) => parseLoop fuel { st with taxlabels := some tl } r4
        | .trees =>
          match parseTrees fuel [] [] r3 with
          | (_, _, some e, _) => (none, some e)
          | (tn, ts, none, r4) =>
            parseLoop fuel { st with treenames := some tn, treestrings := some ts } r4
        | .data =>
          match parseData fuel {} r3 with
          | (_, some e, _) => (none, some e)
          | (d, none, r4) =>
            parseLoop fuel
              { st with
                  names := some d.names, seqs := some d.seqs, nchar := d.nchar,
                  ntax := d.ntax, datatype := d.datatype, missing := d.missing,
                  gap := d.gap } r4
        | _ =>
          match parseUnsupportedBlock fuel r3 with
          | (some e, _) => (none, some e)
          | (none, r4) => parseLoop fuel st r4
    | _ => parseLoop fuel st r

/-- Parser.Parse: the first non-whitespace token must be the NEXUS
header, then the block loop runs; as in the Go signature the result is
a document pointer and an error value. -/
def Parse (fuel : Nat) (toks : List Token) : Option Nexus × Option PErr :=
  let (t, r) := scanIW toks
  if t.kind ≠ .nexusTok then (none, some (.notNexus t.lit))
  else parseLoop fuel {} r

/-- The concatenation of the identifier literals of a tree body. -/
def bodyLits : List Token → String
  | [] => ""
  | t :: rest => (if t.kind = .ident then t.lit else "") ++ bodyLits rest

/-- Tree-body token lists made of identifier tokens, each optionally
preceded by a single whitespace token (the scanner emits maximal runs,
so whitespace tokens never repeat). -/
inductive BodyOk : List Token → Prop
  | nil : BodyOk []
  | ident (lit : String) (rest : List Token) : BodyOk rest → BodyOk (⟨.ident, lit⟩ :: rest)
  | wsident (w lit : String) (rest : List Token) :
      BodyOk rest → BodyOk (⟨.ws, w⟩ :: ⟨.ident, lit⟩ :: rest)

/-- On an identifier-token body, the tree-body loop concatenates the
literals, discards the whitespace, stops at the command terminator and
changes neither the error nor the stop flag. -/
theorem treeBody_bodyOk {body : List Token} (hb : BodyOk body) :
    ∀ fuel, body.length < fuel → ∀ ecl rest acc err stop,
      treeBody fuel (body ++ ⟨.eoc, ecl⟩ :: rest) acc err stop =
        (acc ++ bodyLits body, err, stop, rest) := by
  induction hb with
  | nil =>
    intro fuel hf ecl rest acc err stop
    match fuel, hf with
    | f + 1, _ => simp [treeBody, scanIW, bodyLits]
  | ident lit rest' h ih =>
    intro fuel hf ecl rest acc err stop
    match fuel, hf with
    | f + 1, hf =>
      have hr : rest'.length < f := by simp at hf; omega
      simp [List.cons_append, treeBody, scanIW, bodyLits, ih f hr, String.append_assoc]
  | wsident w lit rest' h ih =>
    intro fuel hf ecl rest acc err stop
    match fuel, hf with
    | f + 1, hf =>
      have hr : rest'.length < f := by simp at hf; omega
      simp [List.cons_append, treeBody, scanIW, bodyLits, ih f hr, String.append_assoc]

/-- Claim C2 counterexample: a TREE command whose body consists of
identifier and number tokens is not accepted without error: the number
token makes parseTrees return the expecting-a-tree error (its literal is
still appended to the collected string before the loop drains to the
terminator). -/
theorem C2_counterexample :
    (parseTrees 20 [] []
      [⟨.tree, "TREE"⟩, ⟨.ident, "t1"⟩, ⟨.equalTok, "="⟩, ⟨.ident, "(A,"⟩,
       ⟨.numeric, "5"⟩, ⟨.ident, ")"⟩, ⟨.eoc, ";"⟩, ⟨.endTok, "END"⟩, ⟨.eoc, ";"⟩]).2.2.1
      = some (.expectedTree "5") := by
  decide

/-- Claim C2 (amended): a TREE command whose body is made of identifier
tokens only, possibly separated by single whitespace tokens, is consumed
without error: the loop concatenates the identifier literals, discards
the whitespace, and appends exactly one tree name and one raw Newick
string before continuing with the rest of the block. Number tokens in
the body are rejected with the expecting-a-tree error (see the
counterexample). -/
theorem C2_tree_command (fuel : Nat) (tn ts : List String) (tl name el ecl : String)
    (body rest : List Token) (hb : BodyOk body) (hf : body.length < fuel) :
    parseTrees (fuel + 1) tn ts
        (⟨.tree, tl⟩ :: ⟨.ident, name⟩ :: ⟨.equalTok, el⟩ :: (body ++ ⟨.eoc, ecl⟩ :: rest)) =
      parseTrees fuel (tn ++ [name]) (ts ++ [bodyLits body]) rest := by
  simp [parseTrees, scanIW, treeBody_bodyOk hb fuel hf]

/-- Claim C2 witness: the amended theorem applied to the body tokens
"(A," and "B)" separated by one whitespace token. -/
theorem C2_tree_command_witness :
    parseTrees 10 [] []
        (⟨.tree, "TREE"⟩ :: ⟨.ident, "t1"⟩ :: ⟨.equalTok, "="⟩ ::
          ([⟨.ident, "(A,"⟩, ⟨.ws, " "⟩, ⟨.ident, "B)"⟩] ++ ⟨.eoc, ";"⟩ ::
            [⟨.endTok, "END"⟩, ⟨.eoc, ";"⟩])) =
      parseTrees 9 ([] ++ ["t1"])
        ([] ++ [bodyLits [⟨.ident, "(A,"⟩, ⟨.ws, " "⟩, ⟨.ident, "B)"⟩]])
        [⟨.endTok, "END"⟩, ⟨.eoc, ";"⟩] :=
  C2_tree_command 9 [] [] "TREE" "t1" "=" ";"
    [⟨.ident, "(A,"⟩, ⟨.ws, " "⟩, ⟨.ident, "B)"⟩] [⟨.endTok, "END"⟩, ⟨.eoc, ";"⟩]
    (BodyOk.ident "(A," _ (BodyOk.wsident " " "B)" [] BodyOk.nil)) (by decide)
/-- The per-sequence loop never produces the gap-and-missing error. -/
theorem addSeqsLoop_ne_gapMissing (accept : Char → Bool) (nchar : Int) (names : List String)
    (ss : List String) (g m : Char) : ∀ (i : Nat) (al : Align),
    (addSeqsLoop accept nchar names ss i al).2 ≠ some (.gapMissing g m) := by
  induction ss with
  | nil => intro i al; simp [addSeqsLoop]
  | cons s rest ih =>
    intro i al
    simp only [addSeqsLoop]
    split
    · simp
    · split
      · simp
      · exact ih (i + 1) (al ++ [(names.getD i "", s)])

/-- The Iterate fold never produces the gap-and-missing error. -/
theorem iterCheck_foldl_ne_gapMissing (tl : List String) (al : Align) (g m : Char) :
    ∀ acc : Option PErr, acc ≠ some (.gapMissing g m) →
      al.foldl (fun acc p => if tl.contains p.1 then acc else some (.seqNameNotInTaxa p.1)) acc
        ≠ some (.gapMissing g m) := by
  induction al with
  | nil => intro acc h; simpa using h
  | cons p rest ih =>
    intro acc h
    simp only [List.foldl_cons]
    apply ih
    split
    · exact h
    · simp

/-- The Iterate check never produces the gap-and-missing error. -/
theorem iterCheck_ne_gapMissing (tl : List String) (al : Align) (g m : Char) :
    iterCheck tl al ≠ some (.gapMissing g m) :=
  iterCheck_foldl_ne_gapMissing tl al g m none (by simp)

/-- The modelled Newick sub-parser only fails with its own error. -/
theorem newickParse_err {s : String} {e : PErr} (h : newickParse s = .error e) :
    e = .newickErr := by
  unfold newickParse at h
  split at h
  split at h
  · exact absurd h (by simp)
  · simpa [eq_comm] using h

/-- The per-tree loop never produces the gap-and-missing error. -/
theorem treesFinal_ne_gapMissing (taxlabels : Option (List String)) (tns : List String)
    (tss : List String) (g m : Char) : ∀ (i : Nat) (acc : List (String × List String)),
    (treesFinal taxlabels tns tss i acc).2 ≠ some (.gapMissing g m) := by
  induction tss with
  | nil => intro i acc; simp [treesFinal]
  | cons s rest ih =>
    intro i acc
    rcases hnp : newickParse (s ++ ";") with e | tips
    · have he : e = .newickErr := newickParse_err hnp
      subst he
      simp [treesFinal, hnp]
    · simp only [treesFinal, hnp]
      rcases taxlabels with _ | tl
      · exact ih (i + 1) _
      · split
        next tl2 heq =>
          obtain rfl : tl = tl2 := by injection heq
          split
          · simp
          · split <;> first | exact ih (i + 1) _ | simp
        next heq => exact absurd heq (by simp)

/-- The tree part of the validation never produces the gap-and-missing
error. -/
theorem finalizeTrees_ne_gapMissing (st : PState) (al : Option Align) (g m : Char) :
    (finalizeTrees st al).2 ≠ some (.gapMissing g m) := by
  unfold finalizeTrees
  rcases st.treenames with _ | tns <;> rcases st.treestrings with _ | tss <;> try simp
  rcases h : treesFinal st.taxlabels tns tss 0 [] with ⟨trs, _ | e⟩
  · simp
  · have := treesFinal_ne_gapMissing st.taxlabels tns tss g m 0 []
    rw [h] at this
    simpa using this

/-- Claim C8: once the whole document is consumed, the validation fails
with the gap-and-missing error iff the declared gap character differs
from the dash or the declared missing character differs from the star;
with the defaults (in particular with no FORMAT declarations, which
leave the defaults in place) this check passes and any failure comes
from a different, later check. -/
theorem C8_gap_missing_check (st : PState) :
    (finalize st).2 = some (.gapMissing st.gap st.missing)
      ↔ (st.gap ≠ '-' ∨ st.missing ≠ '*') := by
  by_cases hgm : st.gap ≠ '-' ∨ st.missing ≠ '*'
  · simp only [finalize, if_pos hgm]
    simpa using hgm
  · apply iff_of_false _ hgm
    simp only [finalize, if_neg hgm]
    rcases st.names with _ | names <;> rcases st.seqs with _ | seqs <;>
      try exact finalizeTrees_ne_gapMissing st _ _ _
    simp only []
    split
    · simp
    · split
      · simp
      · rcases h : addSeqsLoop (alphaAccept st.datatype) st.nchar names seqs 0 [] with ⟨al, _ | e⟩
        · simp only [h]
          rcases htl : st.taxlabels with _ | tl
          · simp only [htl]
            exact finalizeTrees_ne_gapMissing st _ _ _
          · simp only [htl]
            rcases hic : iterCheck tl al with _ | e2
            · simp only [hic]
              split
              · simp
              · exact finalizeTrees_ne_gapMissing st _ _ _
            · simp only [hic]
              have := iterCheck_ne_gapMissing tl al st.gap st.missing
              rw [hic] at this
              simpa using this
        · simp only [h]
          have := addSeqsLoop_ne_gapMissing (alphaAccept st.datatype) st.nchar names seqs
            st.gap st.missing 0 []
          rw [h] at this
          simpa using this

/-- The rows the per-sequence loop hands to the alignment, in order:
the name of index i next to sequence i. -/
def buildRows (names : List String) : List String → Nat → Align
  | [], _ => []
  | s :: rest, i => (names.getD i "", s) :: buildRows names rest (i + 1)

/-- With the character-count sentinel and accepted sequences, the
per-sequence loop succeeds and appends one row per sequence. -/
theorem addSeqsLoop_ok (accept : Char → Bool) (names : List String) :
    ∀ (ss : List String) (i : Nat) (al : Align),
      (∀ s ∈ ss, s.toList.all accept = true) →
      addSeqsLoop accept (-1) names ss i al = (al ++ buildRows names ss i, none) := by
  intro ss
  induction ss with
  | nil => intro i al _; simp [addSeqsLoop, buildRows]
  | cons s rest ih =>
    intro i al hok
    have hs : s.toList.all accept = true := hok s (by simp)
    simp only [addSeqsLoop, buildRows]
    rw [if_neg (by simp), if_neg (by rw [hs]; decide)]
    rw [ih (i + 1) (al ++ [(names.getD i "", s)]) (fun x hx => hok x (by simp [hx]))]
    simp

/-- One alignment row per matrix row. -/
theorem buildRows_length (names : List String) :
    ∀ (ss : List String) (i : Nat), (buildRows names ss i).length = ss.length := by
  intro ss
  induction ss with
  | nil => intro i; simp [buildRows]
  | cons s rest ih => intro i; simp [buildRows, ih]

/-- The Parse state after an otherwise well-formed document: a DATA
block declaring NTAX and no character count, default format characters,
no taxa set and no trees. -/
def ntaxState (ntaxD : Int) (names seqs : List String) : PState :=
  { nchar := -1, ntax := ntaxD, datatype := "dna", missing := '*', gap := '-',
    taxlabels := none, names := some names, seqs := some seqs,
    treenames := none, treestrings := none }

/-- Claim C6: with an otherwise well-formed state, the post-loop
validation succeeds iff no NTAX was declared (sentinel -1) or the
number of matrix rows equals the declared NTAX; in particular a row
count of NTAX plus or minus one fails with the count-mismatch error,
which the second conjunct names exactly. The parser appends exactly one
row name per matrix row, so the length of the collected name list is
the row count the claim speaks about. -/
theorem C6_ntax_row_check (ntaxD : Int) (names seqs : List String)
    (hok : ∀ s ∈ seqs, s.toList.all (alphaAccept "dna") = true) :
    ((finalize (ntaxState ntaxD names seqs)).2 = none
      ↔ (ntaxD = -1 ∨ (names.length : Int) = ntaxD))
    ∧ ((ntaxD ≠ -1 ∧ (names.length : Int) ≠ ntaxD) →
        (finalize (ntaxState ntaxD names seqs)).2
          = some (.ntaxMismatch names.length ntaxD)) := by
  have hka : knownAlphabet "dna" = true := by decide
  by_cases hn : (names.length : Int) ≠ ntaxD ∧ ntaxD ≠ -1
  · constructor
    · simp only [finalize, ntaxState]
      rw [if_neg (by simp), if_neg (by simp [hka]), if_pos hn]
      constructor
      · intro h; exact absurd h (by simp)
      · intro h; omega
    · intro _
      simp only [finalize, ntaxState]
      rw [if_neg (by simp), if_neg (by simp [hka]), if_pos hn]
  · constructor
    · simp only [finalize, ntaxState]
      rw [if_neg (by simp), if_neg (by simp [hka]), if_neg hn,
        addSeqsLoop_ok (alphaAccept "dna") names seqs 0 [] hok]
      simp [finalizeTrees]
      omega
    · intro h
      exact absurd h (by tauto)

/-- Claim C6 witness: NTAX declared as 2 with two accepted rows. -/
theorem C6_ntax_row_check_witness :
    ((finalize (ntaxState 2 ["a", "b"] ["ACGT", "ACGT"])).2 = none
      ↔ ((2 : Int) = -1 ∨ ((["a", "b"].length : Nat) : Int) = 2))
    ∧ (((2 : Int) ≠ -1 ∧ ((["a", "b"].length : Nat) : Int) ≠ 2) →
        (finalize (ntaxState 2 ["a", "b"] ["ACGT", "ACGT"])).2
          = some (.ntaxMismatch ["a", "b"].length 2)) :=
  C6_ntax_row_check 2 ["a", "b"] ["ACGT", "ACGT"] (by decide)

/-- Once the Iterate fold has recorded an offender it never forgets it. -/
theorem iterFoldl_some_ne_none (tl : List String) (al : Align) (e : PErr) :
    al.foldl (fun acc p => if tl.contains p.1 then acc else some (.seqNameNotInTaxa p.1))
      (some e) ≠ none := by
  induction al generalizing e with
  | nil => simp
  | cons p rest ih =>
    simp only [List.foldl_cons]
    split
    · exact ih e
    · exact ih _

/-- The Iterate check passes iff every row name belongs to the taxa
set. -/
theorem iterCheck_none_iff (tl : List String) (al : Align) :
    iterCheck tl al = none ↔ ∀ p ∈ al, tl.contains p.1 = true := by
  unfold iterCheck
  induction al with
  | nil => simp
  | cons p rest ih =>
    simp only [List.foldl_cons, List.mem_cons]
    by_cases hc : tl.contains p.1
    · rw [if_pos hc]
      rw [ih]
      constructor
      · intro h q hq
        rcases hq with rfl | hq
        · exact hc
        · exact h q hq
      · intro h q hq
        exact h q (Or.inr hq)
    · rw [if_neg hc]
      constructor
      · intro h
        exact absurd h (iterFoldl_some_ne_none tl rest _)
      · intro h
        exact absurd (h p (Or.inl rfl)) hc

/-- With no declared taxa set, the per-tree loop succeeds on trees that
parse. -/
theorem treesFinal_none_ok (tns : List String) :
    ∀ (tss : List String) (i : Nat) (acc : List (String × List String)),
      (∀ s ∈ tss, ∃ tp, newickParse (s ++ ";") = .ok tp) →
      (treesFinal none tns tss i acc).2 = none := by
  intro tss
  induction tss with
  | nil => intro i acc _; simp [treesFinal]
  | cons s rest ih =>
    intro i acc hok
    obtain ⟨tp, htp⟩ := hok s (by simp)
    simp only [treesFinal, htp]
    exact ih (i + 1) _ (fun x hx => hok x (by simp [hx]))

/-- With a declared taxa set, the per-tree loop succeeds iff every tip
of every parsed tree belongs to the set and every tree has exactly as
many tips as the set has labels. -/
theorem treesFinal_some_iff (tl tns : List String) :
    ∀ (tss : List String) (i : Nat) (acc : List (String × List String)),
      (∀ s ∈ tss, ∃ tp, newickParse (s ++ ";") = .ok tp) →
      ((treesFinal (some tl) tns tss i acc).2 = none ↔
        ∀ s ∈ tss, ∀ tp, newickParse (s ++ ";") = .ok tp →
          ((∀ x ∈ tp, tl.contains x = true) ∧ tp.length = tl.length)) := by
  intro tss
  induction tss with
  | nil => intro i acc _; simp [treesFinal]
  | cons s rest ih =>
    intro i acc hok
    obtain ⟨tp, htp⟩ := hok s (by simp)
    simp only [treesFinal, htp]
    split
    next x hfx =>
      apply iff_of_false (by simp)
      intro hcontra
      have hx : x ∈ tp := List.mem_of_find?_eq_some hfx
      have h2 := List.find?_some hfx
      have h3 := (hcontra s (by simp) tp htp).1 x hx
      simp only [Bool.not_eq_true'] at h2
      rw [h3] at h2
      exact absurd h2 (by simp)
    next hfn =>
      have hall : ∀ x ∈ tp, tl.contains x = true := by
        intro x hx
        have := List.find?_eq_none.mp hfn x hx
        simpa using this
      split
      next hlen =>
        apply iff_of_false (by simp)
        intro hcontra
        exact hlen ((hcontra s (by simp) tp htp).2)
      next hlen =>
        have hlen2 : tp.length = tl.length := not_ne_iff.mp hlen
        rw [ih (i + 1) _ (fun x hx => hok x (by simp [hx]))]
        constructor
        · intro h q hq tq htq
          rcases List.mem_cons.mp hq with rfl | hq2
          · have h5 : tp = tq := by rw [htp] at htq; injection htq
            rw [← h5]
            exact ⟨hall, hlen2⟩
          · exact h q hq2 tq htq
        · intro h q hq tq htq
          exact h q (by simp [hq]) tq htq

/-- The names of the alignment rows are the collected row names. -/
theorem buildRows_map_fst (names : List String) :
    ∀ (ss : List String) (i : Nat), names.length = i + ss.length →
      (buildRows names ss i).map Prod.fst = names.drop i := by
  intro ss
  induction ss with
  | nil =>
    intro i h
    simp only [List.length_nil, Nat.add_zero] at h
    simp only [buildRows, List.map_nil]
    rw [List.drop_eq_nil_of_le (by omega)]
  | cons s rest ih =>
    intro i h
    have hi : i < names.length := by simp at h; omega
    simp only [buildRows, List.map_cons]
    rw [ih (i + 1) (by simp at h ⊢; omega)]
    rw [List.getD_eq_getElem names "" hi]
    exact List.getElem_cons_drop names i hi

/-- The Parse state of an otherwise well-formed document with an
alignment, trees, and an optional taxa set, no declared counts and
default format characters. -/
def taxState (tl : Option (List String)) (names seqs tns tss : List String) : PState :=
  { nchar := -1, ntax := -1, datatype := "dna", missing := '*', gap := '-',
    taxlabels := tl, names := some names, seqs := some seqs,
    treenames := some tns, treestrings := some tss }

/-- Claim C7: with a declared taxa set, the post-loop validation
succeeds iff every alignment sequence name belongs to the set, the
set's cardinality equals the number of sequences, and for every parsed
tree every tip belongs to the set with the tip count equal to the
cardinality; so the parse fails whenever a name or tip is absent or a
cardinality differs. With no taxa set declared, no cross-validation
error is raised and the same state passes. -/
theorem C7_taxlabels_cross_validation (tl names seqs tns tss : List String)
    (hlen : names.length = seqs.length)
    (hok : ∀ s ∈ seqs, s.toList.all (alphaAccept "dna") = true)
    (htr : ∀ s ∈ tss, ∃ tp, newickParse (s ++ ";") = .ok tp) :
    ((finalize (taxState (some tl) names seqs tns tss)).2 = none ↔
      ((∀ nm ∈ names, tl.contains nm = true) ∧ names.length = tl.length
        ∧ ∀ s ∈ tss, ∀ tp, newickParse (s ++ ";") = .ok tp →
            ((∀ x ∈ tp, tl.contains x = true) ∧ tp.length = tl.length)))
    ∧ (finalize (taxState none names seqs tns tss)).2 = none := by
  have hka : knownAlphabet "dna" = true := by decide
  have hmap : (buildRows names seqs 0).map Prod.fst = names := by
    rw [buildRows_map_fst names seqs 0 (by omega)]
    simp
  have hblen : (buildRows names seqs 0).length = names.length := by
    rw [buildRows_length names seqs 0, hlen]
  have hiter : iterCheck tl (buildRows names seqs 0) = none
      ↔ ∀ nm ∈ names, tl.contains nm = true := by
    rw [iterCheck_none_iff]
    constructor
    · intro h nm hnm
      rw [← hmap] at hnm
      obtain ⟨p, hp, rfl⟩ := List.mem_map.mp hnm
      exact h p hp
    · intro h p hp
      apply h
      rw [← hmap]
      exact List.mem_map_of_mem Prod.fst hp
  constructor
  · simp only [finalize, taxState]
    rw [if_neg (by simp), if_neg (by simp [hka]), if_neg (by simp),
      addSeqsLoop_ok (alphaAccept "dna") names seqs 0 [] hok]
    simp only [List.nil_append]
    rcases hic : iterCheck tl (buildRows names seqs 0) with _ | e
    · simp only [hic]
      have hmem : ∀ nm ∈ names, tl.contains nm = true := hiter.mp hic
      by_cases hl : (buildRows names seqs 0).length ≠ tl.length
      · rw [if_pos hl]
        apply iff_of_false (by simp)
        rw [hblen] at hl
        intro hcon
        exact hl hcon.2.1
      · rw [if_neg hl]
        rw [hblen] at hl
        have hl2 : names.length = tl.length := not_ne_iff.mp hl
        simp only [finalizeTrees, taxState]
        rcases htf : treesFinal (some tl) tns tss 0 [] with ⟨trs, _ | e⟩
        · apply iff_of_true (by simp)
          refine ⟨hmem, hl2, ?_⟩
          exact (treesFinal_some_iff tl tns tss 0 [] htr).mp (by rw [htf])
        · apply iff_of_false (by simp)
          intro hcon
          have := (treesFinal_some_iff tl tns tss 0 [] htr).mpr hcon.2.2
          rw [htf] at this
          exact absurd this (by simp)
    · simp only [hic]
      apply iff_of_false (by simp)
      intro hcon
      have := hiter.mpr hcon.1
      rw [hic] at this
      exact absurd this (by simp)
  · simp only [finalize, taxState]
    rw [if_neg (by simp), if_neg (by simp [hka]), if_neg (by simp),
      addSeqsLoop_ok (alphaAccept "dna") names seqs 0 [] hok]
    simp only [finalizeTrees, taxState]
    rcases htf : treesFinal none tns tss 0 [] with ⟨trs, _ | e⟩
    · simp
    · have := treesFinal_none_ok tns tss 0 [] htr
      rw [htf] at this
      exact absurd this (by simp)

/-- The tree part of the validation returns a document with no error or
no document with an error. -/
theorem finalizeTrees_shape (st : PState) (al : Option Align) :
    (∃ d, finalizeTrees st al = (some d, none)) ∨ (∃ e, finalizeTrees st al = (none, some e)) := by
  unfold finalizeTrees
  repeat' split
  all_goals first | exact Or.inl ⟨_, rfl⟩ | exact Or.inr ⟨_, rfl⟩

/-- The post-loop validation returns a document with no error or no
document with an error. -/
theorem finalize_shape (st : PState) :
    (∃ d, finalize st = (some d, none)) ∨ (∃ e, finalize st = (none, some e)) := by
  unfold finalize
  repeat' split
  all_goals first
    | exact Or.inr ⟨_, rfl⟩
    | exact Or.inl ⟨_, rfl⟩
    | exact finalizeTrees_shape st _

/-- The block loop returns a document with no error or no document with
an error, on every state and every token stream. -/
theorem parseLoop_shape : ∀ (fuel : Nat) (st : PState) (toks : List Token),
    (∃ d, parseLoop fuel st toks = (some d, none))
      ∨ (∃ e, parseLoop fuel st toks = (none, some e)) := by
  intro fuel
  induction fuel with
  | zero => intro st toks; exact Or.inr ⟨.outOfFuel, rfl⟩
  | succ f ih =>
    intro st toks
    rcases hs : scanIW toks with ⟨t, r⟩
    simp only [parseLoop, hs]
    cases hk : t.kind
    case illegal => exact Or.inr ⟨_, rfl⟩
    case eofTok => exact finalize_shape st
    case beginTok =>
      rcases hs2 : scanIW r with ⟨t2, r2⟩
      rcases hs3 : scanIW r2 with ⟨t3, r3⟩
      simp only [hs2, hs3]
      by_cases h3 : t3.kind = .eoc
      · rw [if_neg (by simp [h3])]
        cases hk2 : t2.kind <;>
        first
          | (rcases hp : parseTaxa f [] r3 with ⟨tlr, _ | e, r4⟩ <;>
              simp only [hp] <;> first | exact ih _ r4 | exact Or.inr ⟨_, rfl⟩)
          | (rcases hp : parseTrees f [] [] r3 with ⟨tn, ts, _ | e, r4⟩ <;>
              simp only [hp] <;> first | exact ih _ r4 | exact Or.inr ⟨_, rfl⟩)
          | (rcases hp : parseData f {} r3 with ⟨d, _ | e, r4⟩ <;>
              simp only [hp] <;> first | exact ih _ r4 | exact Or.inr ⟨_, rfl⟩)
          | (rcases hp : parseUnsupportedBlock f r3 with ⟨_ | e, r4⟩ <;>
              simp only [hp] <;> first | exact ih _ r4 | exact Or.inr ⟨_, rfl⟩)
      · rw [if_pos h3]
        exact Or.inr ⟨_, rfl⟩
    all_goals exact ih st r

/-- Claim C9: for every fuel and every token stream, Parse returns
either a document with a nil error or a nil document with a non-nil
error; no partially filled document is ever observable. Streams on
which the Go loops would spin forever surface here as the distinguished
out-of-fuel error, still with a nil document. -/
theorem C9_no_partial_document (fuel : Nat) (toks : List Token) :
    (∃ doc, Parse fuel toks = (some doc, none)) ∨ (∃ e, Parse fuel toks = (none, some e)) := by
  unfold Parse
  rcases hs : scanIW toks with ⟨t, r⟩
  simp only [hs]
  split
  · exact Or.inr ⟨_, rfl⟩
  · exact parseLoop_shape fuel {} r

/-- The taxa label set never holds duplicates: insertion into the Go
map collapses repeated labels. -/
theorem taxlabelsLoop_nodup : ∀ (fuel : Nat) (s : List String) (toks : List Token),
    s.Nodup → ((taxlabelsLoop fuel s toks).1).Nodup := by
  intro fuel
  induction fuel with
  | zero => intro s toks h; exact h
  | succ f ih =>
    intro s toks h
    rcases hs : scanIW toks with ⟨t, r⟩
    simp only [taxlabelsLoop, hs]
    cases hk : t.kind <;> try exact h
    apply ih
    by_cases hc : s.contains t.lit
    · rw [if_pos hc]
      exact h
    · rw [if_neg hc]
      have hx : t.lit ∉ s := by simpa using hc
      simp [List.nodup_append, h, hx]

/-- The token stream of a document with the duplicate label list
TAXLABELS A A B and the tree (A,B). -/
def c10toks : List Token :=
  [⟨.nexusTok, "#NEXUS"⟩,
   ⟨.beginTok, "BEGIN"⟩, ⟨.taxa, "TAXA"⟩, ⟨.eoc, ";"⟩,
   ⟨.taxlabels, "TAXLABELS"⟩, ⟨.ident, "A"⟩, ⟨.ident, "A"⟩, ⟨.ident, "B"⟩, ⟨.eoc, ";"⟩,
   ⟨.endTok, "END"⟩, ⟨.eoc, ";"⟩,
   ⟨.beginTok, "BEGIN"⟩, ⟨.trees, "TREES"⟩, ⟨.eoc, ";"⟩,
   ⟨.tree, "TREE"⟩, ⟨.ident, "t1"⟩, ⟨.equalTok, "="⟩, ⟨.ident, "(A,B)"⟩, ⟨.eoc, ";"⟩,
   ⟨.endTok, "END"⟩, ⟨.eoc, ";"⟩]

/-- Claim C10: TAXLABELS stores labels in a set, so a duplicate label
counts once, and the cardinality comparisons use the number of distinct
labels: the label list A A B with tree tips A and B passes the whole
parse, producing the document with that single tree. -/
theorem C10_taxlabels_dedup :
    (∀ (fuel : Nat) (s : List String) (toks : List Token),
        s.Nodup → ((taxlabelsLoop fuel s toks).1).Nodup)
    ∧ Parse 50 c10toks = (some { al := none, trees := [("t1", ["A", "B"])] }, none) :=
  ⟨taxlabelsLoop_nodup, by decide⟩

/-- Claim C10 witness: the set built from the duplicate label list has
no duplicates. -/
theorem C10_taxlabels_dedup_witness :
    ((taxlabelsLoop 10 []
      [⟨.ident, "A"⟩, ⟨.ident, "A"⟩, ⟨.ident, "B"⟩, ⟨.eoc, ";"⟩]).1).Nodup :=
  C10_taxlabels_dedup.1 10 []
    [⟨.ident, "A"⟩, ⟨.ident, "A"⟩, ⟨.ident, "B"⟩, ⟨.eoc, ";"⟩] List.nodup_nil

/-- Claim C7 witness: labels A and B against a two-row alignment named
A and B and the tree (A,B). -/
theorem C7_taxlabels_cross_validation_witness :
    ((finalize (taxState (some ["A", "B"]) ["A", "B"] ["ACGT", "ACGT"] ["t1"] ["(A,B)"])).2 = none ↔
      ((∀ nm ∈ (["A", "B"] : List String), (["A", "B"] : List String).contains nm = true)
        ∧ (["A", "B"] : List String).length = (["A", "B"] : List String).length
        ∧ ∀ s ∈ (["(A,B)"] : List String), ∀ tp, newickParse (s ++ ";") = .ok tp →
            ((∀ x ∈ tp, (["A", "B"] : List String).contains x = true)
              ∧ tp.length = (["A", "B"] : List String).length)))
    ∧ (finalize (taxState none ["A", "B"] ["ACGT", "ACGT"] ["t1"] ["(A,B)"])).2 = none :=
  C7_taxlabels_cross_validation ["A", "B"] ["A", "B"] ["ACGT", "ACGT"] ["t1"] ["(A,B)"]
    rfl (by decide)
    (by
      intro s hs
      have hseq : s = "(A,B)" := by simpa using hs
      exact ⟨["A", "B"], by rw [hseq]; rfl⟩)
